import Mathlib

/-!
Shallow embedding of `cassandra_io/polygon_index.py` (class `Polygon_File_Index`).

The Python class keeps two structures:
  * `self._polygons` : a dict mapping the unique 'file' key to a shapely
    polygon object — modelled as an association list `List (String × QPoly)`
    with insertion-ordered, unique keys (the dict behaviour in all reachable
    states);
  * `self._rtree` : an `rtree.index.Index` holding (integer id, bounding box,
    payload dict) entries — modelled as a `List Entry` in insertion order.

External collaborators (excluded from the core by the specification) are
modelled as follows:
  * shapely polygons are represented by their exterior coordinate ring
    (`QPoly = List (ℚ × ℚ)`, closed the way the shapely constructor closes it);
    `bounds`, `almost_equals` (decimal=6) and point containment
    (`intersects(Point)`) are given exact rational implementations;
  * the hashing collaborator `hash_string` (md5 of the key, read as an
    integer) is modelled as a concrete injective, deterministic encoding of
    the string, matching the collaborator contract "deterministic,
    effectively-unique integer";
  * polygon/polygon intersection (used only by `intersect`) is an abstract
    parameter `GeomIntersect` producing a `Shape` that records emptiness and
    whether the result is a single simple polygon with given exterior
    coordinates;
  * file I/O in `save`/`load` is modelled by passing the list of serialized
    entries directly.

Coordinates are exact rationals; the Python floats are a fixed-precision
subset of them.
-/

/-- A 2-D coordinate pair, exact rational model of the Python floats. -/
abbrev Pt : Type := ℚ × ℚ

/-- A polygon coordinate ring, as passed to `geometry.Polygon`. -/
abbrev QPoly : Type := List Pt

/-- A payload dict as used by the index: the required 'file' and 'polygon'
fields (possibly missing, hence `Option`), plus opaque pass-through metadata
fields. -/
structure Record where
  file : Option String
  polygon : Option QPoly
  meta : List (String × String)
deriving DecidableEq, Repr

/-- Axis-aligned bounding box in shapely order `(minx, miny, maxx, maxy)`. -/
structure BBox where
  minx : ℚ
  miny : ℚ
  maxx : ℚ
  maxy : ℚ
deriving DecidableEq, Repr

/-- One entry of the R-tree: node id, bounding box and the payload dict. -/
structure Entry where
  id : Nat
  bbox : BBox
  obj : Record
deriving DecidableEq, Repr

/-- Close a coordinate ring the way `geometry.Polygon` does: the exterior
ring always ends where it starts. -/
def closeRing (p : QPoly) : QPoly :=
  match p with
  | [] => []
  | q :: _ => if p.getLast? = some q then p else p ++ [q]

/-- Model of the shapely polygon constructor `geometry.Polygon(coords)`:
the polygon is represented by its closed exterior ring. -/
def mkPolygon (coords : QPoly) : QPoly := closeRing coords

/-- Grow a bounding box to cover one more point. -/
def expandBBox (b : BBox) (q : Pt) : BBox :=
  ⟨min b.minx q.1, min b.miny q.2, max b.maxx q.1, max b.maxy q.2⟩

/-- Auxiliary fold for `polyBounds`. -/
def boundsAux : BBox → QPoly → BBox
  | b, [] => b
  | b, q :: qs => boundsAux (expandBBox b q) qs

/-- Model of shapely `polygon.bounds`: the smallest axis-aligned box covering
the ring.  (The empty ring does not occur in any reachable state.) -/
def polyBounds : QPoly → BBox
  | [] => ⟨0, 0, 0, 0⟩
  | q :: qs => boundsAux ⟨q.1, q.2, q.1, q.2⟩ qs

/-- Tolerance of shapely `almost_equals` at its default `decimal=6`:
half of 10 ^ (-6). -/
def tolQ : ℚ := 1 / 2000000

/-- Two coordinate pairs agree within `tolQ` componentwise. -/
def ptClose (p q : Pt) : Bool :=
  decide (|p.1 - q.1| ≤ tolQ ∧ |p.2 - q.2| ≤ tolQ)

/-- Model of shapely `almost_equals` (approximate geometric equality):
same coordinate sequence up to the floating tolerance. -/
def almostEquals (p q : QPoly) : Bool :=
  p.length == q.length && (List.zip p q).all (fun c => ptClose c.1 c.2)

/-- The edges of a closed ring: consecutive coordinate pairs. -/
def edges (ring : QPoly) : List (Pt × Pt) := List.zip ring (ring.drop 1)

/-- Predicate: `p` lies on the closed segment from `a` to `b`. -/
def onSegment (a b p : Pt) : Bool :=
  decide ((b.1 - a.1) * (p.2 - a.2) = (b.2 - a.2) * (p.1 - a.1)
    ∧ min a.1 b.1 ≤ p.1 ∧ p.1 ≤ max a.1 b.1
    ∧ min a.2 b.2 ≤ p.2 ∧ p.2 ≤ max a.2 b.2)

/-- The horizontal ray from `p` to the right crosses the open edge `(a, b)`
(standard ray-casting test; division on ℚ is exact and the divisor is
nonzero whenever the vertical-span condition holds). -/
def crossesRay (p a b : Pt) : Bool :=
  decide (((a.2 ≤ p.2 ∧ p.2 < b.2) ∨ (b.2 ≤ p.2 ∧ p.2 < a.2))
    ∧ p.1 < a.1 + (p.2 - a.2) * (b.1 - a.1) / (b.2 - a.2))

/-- Model of shapely `polygon.intersects(Point(p))`: `p` lies on the boundary
of the ring or strictly inside it (odd crossing number). -/
def containsPoint (ring : QPoly) (p : Pt) : Bool :=
  (edges ring).any (fun e => onSegment e.1 e.2 p)
    || (edges ring).countP (fun e => crossesRay p e.1 e.2) % 2 == 1

/-- Digit value of one character for `hash_string`; always in
`[1, 1114112]`. -/
def charCode (c : Char) : Nat := c.toNat + 1

/-- Positional encoding of a character list, base 1114113. -/
def encodeChars : List Char → Nat
  | [] => 0
  | c :: cs => charCode c + 1114113 * encodeChars cs

/-- Modelled from the spec: the hashing collaborator `hash_string` (md5 of
the key interpreted as an integer) is outside the core; the spec requires a
"deterministic, effectively-unique" integer, modelled here as an injective
positional encoding of the string. -/
def hash_string (s : String) : Nat := encodeChars s.data

/-- Association-list lookup, modelling Python dict membership and
subscription for `self._polygons`. -/
def dictFind : List (String × QPoly) → String → Option QPoly
  | [], _ => none
  | (k, v) :: d, g => if g = k then some v else dictFind d g

/-- Association-list deletion of the first binding of a key, modelling
`del self._polygons[k]` (keys are unique in every reachable dict). -/
def dictErase : List (String × QPoly) → String → List (String × QPoly)
  | [], _ => []
  | (k, v) :: d, f => if k = f then d else (k, v) :: dictErase d f

/-- Association-list assignment `d[k] = v`: overwrite in place when the key
is present, append otherwise (Python dict semantics). -/
def dictSet (d : List (String × QPoly)) (k : String) (v : QPoly) :
    List (String × QPoly) :=
  if (dictFind d k).isSome then
    d.map (fun p => if p.1 = k then (k, v) else p)
  else d ++ [(k, v)]

/-- Remove one tree entry located by exact node id and bounding box,
modelling `self._rtree.delete(id, bounds)`. -/
def treeDelete : List Entry → Nat → BBox → List Entry
  | [], _, _ => []
  | e :: t, i, b =>
    if e.id = i ∧ e.bbox = b then t else e :: treeDelete t i b

/-- All tree entries whose bounding box overlaps a query box, modelling
`self._rtree.intersection(qbox)` (exact filter: the collaborator contract
forbids false negatives, and the model has no false positives). -/
def overlapsBBox (a b : BBox) : Bool :=
  decide (a.minx ≤ b.maxx ∧ b.minx ≤ a.maxx ∧ a.miny ≤ b.maxy ∧ b.miny ≤ a.maxy)

def treeIntersection (t : List Entry) (b : BBox) : List Entry :=
  t.filter (fun e => overlapsBBox e.bbox b)

/-- Union of two bounding boxes. -/
def bboxUnion (a b : BBox) : BBox :=
  ⟨min a.minx b.minx, min a.miny b.miny, max a.maxx b.maxx, max a.maxy b.maxy⟩

/-- Auxiliary fold for `treeBounds`. -/
def unionAux : BBox → List Entry → BBox
  | b, [] => b
  | b, e :: es => unionAux (bboxUnion b e.bbox) es

/-- Model of `self._rtree.bounds`: the union of all stored boxes, `none` for
the empty tree (whose inverted bounds make every intersection query empty). -/
def treeBounds : List Entry → Option BBox
  | [] => none
  | e :: es => some (unionAux e.bbox es)

/-- Squared distance from a value to an interval. -/
def axDist (lo hi v : ℚ) : ℚ := max (lo - v) (max (v - hi) 0)

/-- Squared bounding-box distance from a point, the measure used by the
R-tree nearest-neighbour query. -/
def bboxDist (b : BBox) (p : Pt) : ℚ :=
  axDist b.minx b.maxx p.1 * axDist b.minx b.maxx p.1
    + axDist b.miny b.maxy p.2 * axDist b.miny b.maxy p.2

/-- Model of `self._rtree.nearest(point, 1, objects='raw')`: the payloads of
all entries at minimal bounding-box distance (the collaborator returns at
least the requested count, with ties included). -/
def treeNearest (t : List Entry) (p : Pt) : List Record :=
  match (t.map (fun e => bboxDist e.bbox p)).min? with
  | none => []
  | some d => (t.filter (fun e => decide (bboxDist e.bbox p = d))).map
      (fun e => e.obj)

/-- The state of a `Polygon_File_Index` instance: the Registry dict
`_polygons` and the R-tree `_rtree`. -/
structure Polygon_File_Index where
  _polygons : List (String × QPoly)
  _rtree : List Entry
deriving DecidableEq, Repr

/-- Constructor `Polygon_File_Index.__init__`: both structures empty. -/
def emptyIndex : Polygon_File_Index := ⟨[], []⟩

/-- The error raised by `_check_data` (spec name: `MalformedRecord`);
the Python code raises `RuntimeError` with the corresponding message. -/
inductive MalformedRecord
  | missingFile
  | missingPolygon
deriving DecidableEq, Repr

instance {ε α : Type} [DecidableEq ε] [DecidableEq α] :
    DecidableEq (Except ε α) := fun a b =>
  match a, b with
  | .ok x, .ok y =>
    if h : x = y then .isTrue (by rw [h]) else .isFalse (by simp [h])
  | .error x, .error y =>
    if h : x = y then .isTrue (by rw [h]) else .isFalse (by simp [h])
  | .ok _, .error _ => .isFalse (by simp)
  | .error _, .ok _ => .isFalse (by simp)

namespace Polygon_File_Index

/-- Operation `insert`: reject malformed data, silently ignore an existing key,
otherwise build the polygon, store it in the Registry and put
`(hash_string(file), bounds, data)` into the tree. -/
def insert (s : Polygon_File_Index) (data : Record) :
    Except MalformedRecord Polygon_File_Index :=
  match data.file with
  | none => .error .missingFile
  | some f =>
    match data.polygon with
    | none => .error .missingPolygon
    | some coords =>
      if (dictFind s._polygons f).isSome then .ok s
      else
        let pl := mkPolygon coords
        .ok { _polygons := s._polygons ++ [(f, pl)],
              _rtree := s._rtree ++
                [{ id := hash_string f, bbox := polyBounds pl, obj := data }] }

/-- Operation `update`: reject malformed data; a new key behaves as `insert` and
reports `true`; an approximately-equal polygon reports `false` with no
mutation; otherwise delete the old tree entry by the old polygon's bounds,
delete the Registry entry, re-insert, report `true`. -/
def update (s : Polygon_File_Index) (data : Record) :
    Except MalformedRecord (Polygon_File_Index × Bool) :=
  match data.file with
  | none => .error .missingFile
  | some f =>
    match data.polygon with
    | none => .error .missingPolygon
    | some coords =>
      match dictFind s._polygons f with
      | none => (s.insert data).map (fun s1 => (s1, true))
      | some pl =>
        if almostEquals pl (mkPolygon coords) then .ok (s, false)
        else
          let s1 : Polygon_File_Index :=
            { _polygons := dictErase s._polygons f,
              _rtree := treeDelete s._rtree (hash_string f) (polyBounds pl) }
          (s1.insert data).map (fun s2 => (s2, true))

/-- Operation `nearest(point)`: filter the raw nearest-neighbour payloads by exact
containment of the point in the Registry polygon of the payload's key.
(The Registry lookups always succeed in reachable states; a missing key
would raise `KeyError` in Python and yields nothing here.) -/
def nearest (s : Polygon_File_Index) (point : Pt) : List Record :=
  (treeNearest s._rtree point).filter (fun data =>
    match data.file with
    | none => false
    | some f =>
      match dictFind s._polygons f with
      | none => false
      | some pl => containsPoint pl point)

/-- Operation `size`: the element count of the tree. -/
def size (s : Polygon_File_Index) : Nat := s._rtree.length

end Polygon_File_Index

/-- The result of a polygon/polygon intersection, as the `intersect` loop
observes it: shapely's `is_empty` flag and, when the result is a single
simple `Polygon`, its exterior coordinates. -/
structure Shape where
  isEmpty : Bool
  asPolygon : Option QPoly

/-- The polygon-intersection collaborator
(`shapely polygon.intersection`), abstract in the model. -/
abbrev GeomIntersect : Type := QPoly → QPoly → Shape

/-- Run `insert` and keep the state, for call sites where the Python code
calls `self.insert` on data already known to be well-formed. -/
def insertForce (s : Polygon_File_Index) (data : Record) :
    Polygon_File_Index :=
  match s.insert data with
  | .ok s1 => s1
  | .error _ => s

namespace Polygon_File_Index

/-- The loop body of `intersect` over the raw candidate payloads. -/
def intersectLoop (gi : GeomIntersect) (qpl : QPoly)
    (src : Polygon_File_Index) :
    Polygon_File_Index → List Record → Polygon_File_Index
  | res, [] => res
  | res, data :: rest =>
    match data.file with
    | none => intersectLoop gi qpl src res rest
    | some f =>
      match dictFind src._polygons f with
      | none => intersectLoop gi qpl src res rest
      | some pl =>
        let schnitt := gi qpl pl
        if schnitt.isEmpty then intersectLoop gi qpl src res rest
        else
          match schnitt.asPolygon with
          | none => intersectLoop gi qpl src res rest
          | some c =>
            intersectLoop gi qpl src
              (insertForce res { data with polygon := some c }) rest

/-- Operation `intersect(polygon)`: a fresh index; empty source short-circuits; else
every tree candidate overlapping the query bounds is intersected with the
query polygon and the surviving clips are inserted. -/
def intersect (gi : GeomIntersect) (s : Polygon_File_Index) (q : QPoly) :
    Polygon_File_Index :=
  let qpl := mkPolygon q
  if s._rtree.length = 0 then emptyIndex
  else
    intersectLoop gi qpl s emptyIndex
      ((treeIntersection s._rtree (polyBounds qpl)).map (fun e => e.obj))

end Polygon_File_Index

/-- One serialized entry of the save file: `{'id': .., 'bbox': ..,
'object': ..}`. -/
structure SavedEntry where
  id : Nat
  bbox : BBox
  obj : Record
deriving DecidableEq, Repr

namespace Polygon_File_Index

/-- Operation `save(fn)`: serialize every entry returned by querying the tree with its
own total bounds (all of them, for the trees arising here); file I/O is
modelled by returning the serialized list. -/
def save (s : Polygon_File_Index) : List SavedEntry :=
  match treeBounds s._rtree with
  | none => []
  | some b => (treeIntersection s._rtree b).map
      (fun e => { id := e.id, bbox := e.bbox, obj := e.obj })

/-- Operation `load(fn)`: for each serialized entry, skip it when `_check_data` fails
on its payload; otherwise put the persisted id, bbox and payload into the
tree as-is and assign the Registry polygon rebuilt from the payload's
coordinates.  Nothing is ever cleared. -/
def load (s : Polygon_File_Index) : List SavedEntry → Polygon_File_Index
  | [] => s
  | x :: xs =>
    match x.obj.file with
    | none => load s xs
    | some f =>
      match x.obj.polygon with
      | none => load s xs
      | some coords =>
        load { _polygons := dictSet s._polygons f (mkPolygon coords),
               _rtree := s._rtree ++ [{ id := x.id, bbox := x.bbox,
                                        obj := x.obj }] } xs

end Polygon_File_Index

/-- Per-entry well-formedness (executable form): the payload has both
required fields, the id is the key's hash, the box is the polygon's bounds
and the Registry holds exactly that polygon under the key. -/
def entryOKb (s : Polygon_File_Index) (e : Entry) : Bool :=
  match e.obj.file, e.obj.polygon with
  | some f, some coords =>
    decide (e.id = hash_string f)
      && decide (e.bbox = polyBounds (mkPolygon coords))
      && decide (dictFind s._polygons f = some (mkPolygon coords))
  | _, _ => false

/-- Per-entry well-formedness, existential form used in proofs. -/
def EntryOK (s : Polygon_File_Index) (e : Entry) : Prop :=
  ∃ f coords, e.obj.file = some f ∧ e.obj.polygon = some coords ∧
    e.id = hash_string f ∧ e.bbox = polyBounds (mkPolygon coords) ∧
    dictFind s._polygons f = some (mkPolygon coords)

/-- The Registry/Tree consistency invariant maintained by insert/update:
the two structures list the same keys in the same order, keys are unique,
and every tree entry is internally consistent with the Registry. -/
abbrev WF (s : Polygon_File_Index) : Prop :=
  s._rtree.map (fun e => e.obj.file)
      = s._polygons.map (fun p => some p.1)
    ∧ (s._polygons.map Prod.fst).Nodup
    ∧ ∀ e ∈ s._rtree, entryOKb s e = true

/-- Sample square with corners (0,0), (0,10), (10,10), (10,0). -/
def sqA : QPoly := [(0, 0), (0, 10), (10, 10), (10, 0)]

/-- Sample square with corners (20,20), (20,30), (30,30), (30,20). -/
def sqB : QPoly := [(20, 20), (20, 30), (30, 30), (30, 20)]

/-- Sample record with key "A" and square `sqA`. -/
def recA : Record := { file := some "A", polygon := some sqA, meta := [] }

/-- Sample record with key "B" and square `sqB`. -/
def recB : Record := { file := some "B", polygon := some sqB, meta := [] }

/-- Record with key "A" but the materially different polygon `sqB`. -/
def recA2 : Record := { file := some "A", polygon := some sqB, meta := [] }

/-- Record with key "A", the polygon of `recA`, but different metadata. -/
def recAm : Record :=
  { file := some "A", polygon := some sqA, meta := [("note", "x")] }

/-- A malformed record: both required fields missing. -/
def recBad : Record := { file := none, polygon := none, meta := [] }

/-- The index obtained by inserting `recA` into a fresh index. -/
def idxA : Polygon_File_Index := insertForce emptyIndex recA

/-- The index obtained by inserting `recA` then `recB`. -/
def idxAB : Polygon_File_Index := insertForce idxA recB

/-- A mutation operation of the index facade. -/
inductive Op
  | ins (r : Record)
  | upd (r : Record)
deriving DecidableEq, Repr

/-- The record carried by an operation. -/
def Op.record : Op → Record
  | .ins r => r
  | .upd r => r

/-- Apply one operation; `update`'s boolean report is discarded. -/
def stepOp (s : Polygon_File_Index) : Op → Except MalformedRecord Polygon_File_Index
  | .ins r => s.insert r
  | .upd r => (s.update r).map Prod.fst

/-- Run a sequence of operations; `none` when some operation raises. -/
def runOps : Polygon_File_Index → List Op → Option Polygon_File_Index
  | s, [] => some s
  | s, o :: os =>
    match stepOp s o with
    | .ok s1 => runOps s1 os
    | .error _ => none

/-- The keys carried by a sequence of operations (all of them on a run that
raised no error). -/
def opsFiles (ops : List Op) : List String :=
  ops.filterMap (fun o => o.record.file)

/-- A bounding box with ordered coordinates (every box computed by
`polyBounds` is such). -/
def bboxWF (b : BBox) : Prop := b.minx ≤ b.maxx ∧ b.miny ≤ b.maxy

/-- Remove the first occurrence of an element from a list. -/
def removeFirst {α : Type} [DecidableEq α] : List α → α → List α
  | [], _ => []
  | x :: xs, a => if x = a then xs else x :: removeFirst xs a

/-- The serialized form of one tree entry, as `save` writes it. -/
def Entry.toSaved (e : Entry) : SavedEntry :=
  { id := e.id, bbox := e.bbox, obj := e.obj }

/-- The tree entry rebuilt by `load` from one serialized entry. -/
def SavedEntry.toEntry (x : SavedEntry) : Entry :=
  { id := x.id, bbox := x.bbox, obj := x.obj }

/-- The clip `intersect` keeps for one candidate payload, following the
specification: `none` when the bounding boxes already ruled the candidate
out of the loop, when the Registry polygon is unavailable, or when the
intersection is empty or not a single simple polygon; otherwise the record
with its polygon replaced by the intersection's exterior coordinates. -/
def specClip (gi : GeomIntersect) (qpl : QPoly) (s : Polygon_File_Index)
    (data : Record) : Option Record :=
  match data.file with
  | none => none
  | some f =>
    match dictFind s._polygons f with
    | none => none
    | some pl =>
      if (gi qpl pl).isEmpty then none
      else
        match (gi qpl pl).asPolygon with
        | none => none
        | some c => some { data with polygon := some c }

/-! ## Helper lemmas -/

theorem entryOKb_iff (s : Polygon_File_Index) (e : Entry) :
    entryOKb s e = true ↔ EntryOK s e := by
  unfold entryOKb EntryOK
  cases hf : e.obj.file with
  | none => simp [hf]
  | some f =>
    cases hp : e.obj.polygon with
    | none => simp [hf, hp]
    | some coords =>
      simp only [Bool.and_eq_true, decide_eq_true_eq]
      constructor
      · rintro ⟨⟨h1, h2⟩, h3⟩
        exact ⟨f, coords, rfl, rfl, h1, h2, h3⟩
      · rintro ⟨f1, c1, hf1, hp1, h1, h2, h3⟩
        cases hf1; cases hp1
        exact ⟨⟨h1, h2⟩, h3⟩

theorem charCode_pos (c : Char) : 0 < charCode c := Nat.succ_pos _

theorem charCode_lt (c : Char) : charCode c < 1114113 := by
  have h : c.toNat < 1114112 := by
    rcases c.valid with h | ⟨_, h⟩
    · exact Nat.lt_trans h (by norm_num)
    · exact h
  exact Nat.succ_lt_succ h

theorem charCode_inj {c c' : Char} (h : charCode c = charCode c') : c = c' := by
  have ht : c.toNat = c'.toNat := Nat.succ_injective h
  exact Char.eq_of_val_eq (UInt32.ext ht)

theorem encodeChars_inj :
    ∀ l1 l2 : List Char, encodeChars l1 = encodeChars l2 → l1 = l2 := by
  intro l1
  induction l1 with
  | nil =>
    intro l2 h
    cases l2 with
    | nil => rfl
    | cons c cs =>
      exfalso
      simp only [encodeChars] at h
      have := charCode_pos c
      omega
  | cons c cs ih =>
    intro l2 h
    cases l2 with
    | nil =>
      exfalso
      have := charCode_pos c
      simp only [encodeChars] at h
      omega
    | cons c' cs' =>
      simp only [encodeChars] at h
      have hc := charCode_lt c
      have hc' := charCode_lt c'
      have hmod : charCode c = charCode c' := by
        have h1 : (charCode c + 1114113 * encodeChars cs) % 1114113
            = charCode c := by
          rw [Nat.add_mul_mod_self_left]
          exact Nat.mod_eq_of_lt hc
        have h2 : (charCode c' + 1114113 * encodeChars cs') % 1114113
            = charCode c' := by
          rw [Nat.add_mul_mod_self_left]
          exact Nat.mod_eq_of_lt hc'
        rw [← h1, ← h2, h]
      have htail : encodeChars cs = encodeChars cs' := by
        have : 1114113 * encodeChars cs = 1114113 * encodeChars cs' := by omega
        exact Nat.eq_of_mul_eq_mul_left (by norm_num) this
      rw [charCode_inj hmod, ih cs' htail]

theorem hash_string_inj {a b : String} (h : hash_string a = hash_string b) :
    a = b := by
  cases a; cases b
  exact congrArg String.mk (encodeChars_inj _ _ h)

theorem dictFind_append_some {d d' : List (String × QPoly)} {g : String}
    {v : QPoly} (h : dictFind d g = some v) :
    dictFind (d ++ d') g = some v := by
  induction d with
  | nil => simp [dictFind] at h
  | cons p d ih =>
    obtain ⟨k, w⟩ := p
    simp only [dictFind, List.cons_append] at h ⊢
    split at h
    · next hk => simp [hk, h]
    · next hk => simp only [if_neg hk]; exact ih h

theorem dictFind_append_none {d d' : List (String × QPoly)} {g : String}
    (h : dictFind d g = none) :
    dictFind (d ++ d') g = dictFind d' g := by
  induction d with
  | nil => simp [dictFind]
  | cons p d ih =>
    obtain ⟨k, w⟩ := p
    simp only [dictFind, List.cons_append] at h ⊢
    split at h
    · cases h
    · next hk => simp only [if_neg hk]; exact ih h

theorem dictFind_isSome_iff_mem {d : List (String × QPoly)} {g : String} :
    (dictFind d g).isSome ↔ g ∈ d.map Prod.fst := by
  induction d with
  | nil => simp [dictFind]
  | cons p d ih =>
    obtain ⟨k, w⟩ := p
    simp only [dictFind, List.map_cons, List.mem_cons]
    by_cases hk : g = k
    · simp [hk]
    · simp [hk, ih]

theorem dictFind_none_iff_not_mem {d : List (String × QPoly)} {g : String} :
    dictFind d g = none ↔ g ∉ d.map Prod.fst := by
  rw [← dictFind_isSome_iff_mem]
  cases dictFind d g <;> simp

theorem dictFind_erase_ne {d : List (String × QPoly)} {f g : String}
    (h : g ≠ f) : dictFind (dictErase d f) g = dictFind d g := by
  induction d with
  | nil => simp [dictErase]
  | cons p d ih =>
    obtain ⟨k, w⟩ := p
    simp only [dictErase, dictFind]
    by_cases hk : k = f
    · simp only [if_pos hk, dictFind]
      rw [if_neg (by rw [hk]; exact h)]
    · simp only [if_neg hk, dictFind]
      split
      · rfl
      · exact ih

theorem dictErase_map_fst (d : List (String × QPoly)) (f : String) :
    (dictErase d f).map Prod.fst = removeFirst (d.map Prod.fst) f := by
  induction d with
  | nil => simp [dictErase, removeFirst]
  | cons p d ih =>
    obtain ⟨k, w⟩ := p
    simp only [dictErase, List.map_cons, removeFirst]
    by_cases hk : k = f
    · simp [hk]
    · simp [hk, ih]

theorem dictSet_absent {d : List (String × QPoly)} {k : String} {v : QPoly}
    (h : dictFind d k = none) : dictSet d k v = d ++ [(k, v)] := by
  unfold dictSet
  rw [h]
  rfl

theorem dictFind_of_mem_nodup {d : List (String × QPoly)} {f : String}
    {v : QPoly} (hmem : (f, v) ∈ d) (hnd : (d.map Prod.fst).Nodup) :
    dictFind d f = some v := by
  induction d with
  | nil => cases hmem
  | cons p d ih =>
    obtain ⟨k, w⟩ := p
    simp only [List.map_cons, List.nodup_cons] at hnd
    rcases List.mem_cons.mp hmem with h | h
    · cases h
      simp [dictFind]
    · have hne : f ≠ k := by
        intro hfk
        exact hnd.1 (hfk ▸ (List.mem_map.mpr ⟨(f, v), h, rfl⟩))
      simp only [dictFind, if_neg hne]
      exact ih h hnd.2

theorem removeFirst_sublist {α : Type} [DecidableEq α] (l : List α) (a : α) :
    (removeFirst l a).Sublist l := by
  induction l with
  | nil => simp [removeFirst]
  | cons x xs ih =>
    simp only [removeFirst]
    split
    · exact List.sublist_cons_self x xs
    · exact ih.cons₂ x

theorem length_removeFirst {α : Type} [DecidableEq α] {l : List α} {a : α}
    (h : a ∈ l) : (removeFirst l a).length + 1 = l.length := by
  induction l with
  | nil => cases h
  | cons x xs ih =>
    simp only [removeFirst]
    by_cases hx : x = a
    · simp [hx]
    · rcases List.mem_cons.mp h with h1 | h1
      · exact absurd h1.symm hx
      · simp only [if_neg hx, List.length_cons]
        rw [← ih h1]

theorem mem_removeFirst_of_ne {α : Type} [DecidableEq α] {l : List α}
    {a b : α} (h : b ≠ a) : b ∈ removeFirst l a ↔ b ∈ l := by
  induction l with
  | nil => simp [removeFirst]
  | cons x xs ih =>
    simp only [removeFirst]
    by_cases hx : x = a
    · simp only [if_pos hx, List.mem_cons]
      constructor
      · exact Or.inr
      · rintro (h1 | h1)
        · exact absurd (h1.trans hx) h
        · exact h1
    · simp only [if_neg hx, List.mem_cons, ih]

theorem not_mem_removeFirst {α : Type} [DecidableEq α] {l : List α} {a : α}
    (hnd : l.Nodup) : a ∉ removeFirst l a := by
  induction l with
  | nil => simp [removeFirst]
  | cons x xs ih =>
    simp only [List.nodup_cons] at hnd
    simp only [removeFirst]
    by_cases hx : x = a
    · simp only [if_pos hx]
      rw [← hx]
      exact hnd.1
    · simp only [if_neg hx, List.mem_cons]
      rintro (h1 | h1)
      · exact hx h1.symm
      · exact ih hnd.2 h1

theorem removeFirst_map_some (l : List String) (f : String) :
    removeFirst (l.map some) (some f) = (removeFirst l f).map some := by
  induction l with
  | nil => simp [removeFirst]
  | cons x xs ih =>
    simp only [List.map_cons, removeFirst]
    by_cases hx : x = f
    · simp [hx]
    · have : ¬ (some x = some f) := by simpa using hx
      simp [hx, this, ih]

theorem treeDelete_sublist (t : List Entry) (i : Nat) (b : BBox) :
    (treeDelete t i b).Sublist t := by
  induction t with
  | nil => simp [treeDelete]
  | cons e t ih =>
    simp only [treeDelete]
    split
    · exact List.sublist_cons_self e t
    · exact ih.cons₂ e

theorem treeDelete_length {t : List Entry} {i : Nat} {b : BBox}
    (h : ∃ e ∈ t, e.id = i ∧ e.bbox = b) :
    (treeDelete t i b).length + 1 = t.length := by
  induction t with
  | nil => simp at h
  | cons e t ih =>
    simp only [treeDelete]
    by_cases he : e.id = i ∧ e.bbox = b
    · simp [he]
    · rcases h with ⟨e1, he1, hc⟩
      rcases List.mem_cons.mp he1 with h1 | h1
      · exact absurd (h1 ▸ hc) he
      · simp only [if_neg he, List.length_cons]
        rw [← ih ⟨e1, h1, hc⟩]

theorem treeDelete_map_file {t : List Entry} {i : Nat} {b : BBox} {f : String}
    (hpt : ∀ e ∈ t, ((e.id = i ∧ e.bbox = b) ↔ e.obj.file = some f)) :
    (treeDelete t i b).map (fun e => e.obj.file)
      = removeFirst (t.map (fun e => e.obj.file)) (some f) := by
  induction t with
  | nil => simp [treeDelete, removeFirst]
  | cons e t ih =>
    simp only [treeDelete, List.map_cons, removeFirst]
    have he := hpt e (List.mem_cons_self e t)
    by_cases hc : e.id = i ∧ e.bbox = b
    · rw [if_pos hc, if_pos (he.mp hc)]
    · have hf : ¬ (e.obj.file = some f) := fun hf1 => hc (he.mpr hf1)
      rw [if_neg hc, if_neg hf, List.map_cons,
        ih (fun e1 he1 => hpt e1 (List.mem_cons_of_mem e he1))]

theorem dictFind_erase_self {d : List (String × QPoly)} {f : String}
    (hnd : (d.map Prod.fst).Nodup) : dictFind (dictErase d f) f = none := by
  rw [dictFind_none_iff_not_mem, dictErase_map_fst]
  by_cases hf : f ∈ d.map Prod.fst
  · exact not_mem_removeFirst hnd
  · intro hmem
    exact hf ((removeFirst_sublist _ _).subset hmem)

theorem entryOKb_congr {s s' : Polygon_File_Index} {e : Entry}
    (hd : ∀ g, (dictFind s._polygons g).isSome →
      dictFind s'._polygons g = dictFind s._polygons g)
    (h : entryOKb s e = true) : entryOKb s' e = true := by
  rw [entryOKb_iff] at h ⊢
  obtain ⟨f, coords, h1, h2, h3, h4, h5⟩ := h
  exact ⟨f, coords, h1, h2, h3, h4, by rw [hd f (by simp [h5])]; exact h5⟩

theorem insert_ok_of_present {s : Polygon_File_Index} {r : Record}
    {f : String} (hf : r.file = some f) (hp : r.polygon.isSome)
    (hpres : (dictFind s._polygons f).isSome) :
    s.insert r = .ok s := by
  unfold Polygon_File_Index.insert
  rw [hf]
  obtain ⟨coords, hc⟩ := Option.isSome_iff_exists.mp hp
  rw [hc]
  simp only [if_pos hpres]

theorem insert_ok_of_absent {s : Polygon_File_Index} {r : Record}
    {f : String} {coords : QPoly} (hf : r.file = some f)
    (hp : r.polygon = some coords) (habs : dictFind s._polygons f = none) :
    s.insert r = .ok
      { _polygons := s._polygons ++ [(f, mkPolygon coords)],
        _rtree := s._rtree
          ++ [⟨hash_string f, polyBounds (mkPolygon coords), r⟩] } := by
  unfold Polygon_File_Index.insert
  simp only [hf, hp, habs, Option.isSome_none, Bool.false_eq_true, if_neg]
  rfl

theorem update_new_key {s : Polygon_File_Index} {r : Record} {f : String}
    {coords : QPoly} (hf : r.file = some f) (hp : r.polygon = some coords)
    (habs : dictFind s._polygons f = none) :
    s.update r = (s.insert r).map (fun s1 => (s1, true)) := by
  unfold Polygon_File_Index.update
  simp only [hf, hp, habs]

theorem update_unchanged {s : Polygon_File_Index} {r : Record} {f : String}
    {coords : QPoly} {pl : QPoly} (hf : r.file = some f)
    (hp : r.polygon = some coords) (hfind : dictFind s._polygons f = some pl)
    (heq : almostEquals pl (mkPolygon coords) = true) :
    s.update r = .ok (s, false) := by
  unfold Polygon_File_Index.update
  simp only [hf, hp, hfind, heq, if_pos]

theorem update_changed {s : Polygon_File_Index} {r : Record} {f : String}
    {coords : QPoly} {pl : QPoly} (hf : r.file = some f)
    (hp : r.polygon = some coords) (hfind : dictFind s._polygons f = some pl)
    (hne : almostEquals pl (mkPolygon coords) = false) :
    s.update r = (Polygon_File_Index.insert
      { _polygons := dictErase s._polygons f,
        _rtree := treeDelete s._rtree (hash_string f) (polyBounds pl) }
      r).map (fun s2 => (s2, true)) := by
  unfold Polygon_File_Index.update
  simp only [hf, hp, hfind, hne, Bool.false_eq_true, if_neg]
  rfl

theorem WF_insert {s s1 : Polygon_File_Index} {r : Record} (hw : WF s)
    (h : s.insert r = .ok s1) :
    WF s1 ∧ ∀ g, g ∈ s1._polygons.map Prod.fst ↔
      (g ∈ s._polygons.map Prod.fst ∨ r.file = some g) := by
  obtain ⟨hkeys, hnd, hent⟩ := hw
  unfold Polygon_File_Index.insert at h
  cases hfile : r.file with
  | none => simp only [hfile] at h; cases h
  | some f =>
    simp only [hfile] at h
    cases hpoly : r.polygon with
    | none => simp only [hpoly] at h; cases h
    | some coords =>
      simp only [hpoly] at h
      by_cases hpres : (dictFind s._polygons f).isSome
      · rw [if_pos hpres] at h
        cases h
        refine ⟨⟨hkeys, hnd, hent⟩, fun g => ?_⟩
        constructor
        · exact Or.inl
        · rintro (hg | hg)
          · exact hg
          · cases hg
            exact dictFind_isSome_iff_mem.mp hpres
      · rw [if_neg hpres] at h
        cases h
        have habs : dictFind s._polygons f = none :=
          Option.not_isSome_iff_eq_none.mp hpres
        have hfmem : f ∉ s._polygons.map Prod.fst :=
          dictFind_none_iff_not_mem.mp habs
        refine ⟨⟨?_, ?_, ?_⟩, fun g => ?_⟩
        · simp only [List.map_append, hkeys, List.map_cons, List.map_nil,
            hfile]
        · simp only [List.map_append, List.map_cons, List.map_nil]
          rw [List.nodup_append]
          exact ⟨hnd, List.nodup_singleton f,
            fun a ha hb => hfmem ((List.mem_singleton.mp hb) ▸ ha)⟩
        · intro e he
          rcases List.mem_append.mp he with he1 | he1
          · refine entryOKb_congr (fun g hg => ?_) (hent e he1)
            obtain ⟨v, hv⟩ := Option.isSome_iff_exists.mp hg
            rw [hv]
            exact dictFind_append_some hv
          · have he2 : e = ⟨hash_string f, polyBounds (mkPolygon coords), r⟩ := by
              simpa using he1
            rw [entryOKb_iff, he2]
            refine ⟨f, coords, hfile, hpoly, rfl, rfl, ?_⟩
            rw [dictFind_append_none habs]
            simp [dictFind]
        · simp only [List.map_append, List.map_cons, List.map_nil,
            List.mem_append, List.mem_cons, List.not_mem_nil, or_false,
            hfile, Option.some_inj]
          constructor
          · rintro (hg | hg)
            · exact Or.inl hg
            · exact Or.inr hg.symm
          · rintro (hg | hg)
            · exact Or.inl hg
            · exact Or.inr hg.symm

theorem tree_files_nodup {s : Polygon_File_Index} (hw : WF s) :
    (s._rtree.map (fun e => e.obj.file)).Nodup := by
  rw [hw.1]
  have : s._polygons.map (fun p => some p.1)
      = (s._polygons.map Prod.fst).map some := by
    simp [List.map_map]
  rw [this]
  exact hw.2.1.map (fun a b h => Option.some.inj h)

theorem delete_pred_iff {s : Polygon_File_Index} (hw : WF s) {f : String}
    {pl : QPoly} (hfind : dictFind s._polygons f = some pl) :
    ∀ e ∈ s._rtree,
      ((e.id = hash_string f ∧ e.bbox = polyBounds pl)
        ↔ e.obj.file = some f) := by
  intro e he
  obtain ⟨f1, c1, h1, h2, h3, h4, h5⟩ := (entryOKb_iff _ _).mp (hw.2.2 e he)
  constructor
  · rintro ⟨hid, _⟩
    rw [h3] at hid
    rw [h1, hash_string_inj hid]
  · intro hf2
    have hf1 : f1 = f := Option.some.inj (h1.symm.trans hf2)
    subst hf1
    have hpl : mkPolygon c1 = pl := Option.some.inj (h5.symm.trans hfind)
    exact ⟨h3, by rw [h4, hpl]⟩

theorem exists_delete_target {s : Polygon_File_Index} (hw : WF s)
    {f : String} {pl : QPoly} (hfind : dictFind s._polygons f = some pl) :
    ∃ e ∈ s._rtree, e.id = hash_string f ∧ e.bbox = polyBounds pl := by
  have hmem : f ∈ s._polygons.map Prod.fst :=
    dictFind_isSome_iff_mem.mp (by simp [hfind])
  have hsome : some f ∈ s._polygons.map (fun p => some p.1) := by
    obtain ⟨p, hp, hpf⟩ := List.mem_map.mp hmem
    exact List.mem_map.mpr ⟨p, hp, by rw [hpf]⟩
  rw [← hw.1] at hsome
  obtain ⟨e, he, hef⟩ := List.mem_map.mp hsome
  exact ⟨e, he, (delete_pred_iff hw hfind e he).mpr hef⟩

theorem WF_erase_mid {s : Polygon_File_Index} (hw : WF s) {f : String}
    {pl : QPoly} (hfind : dictFind s._polygons f = some pl) :
    WF { _polygons := dictErase s._polygons f,
         _rtree := treeDelete s._rtree (hash_string f) (polyBounds pl) }
      ∧ dictFind (dictErase s._polygons f) f = none := by
  obtain ⟨hkeys, hnd, hent⟩ := hw
  have hw' : WF s := ⟨hkeys, hnd, hent⟩
  have htnd := tree_files_nodup hw'
  have hpt := delete_pred_iff hw' hfind
  have hmapdel : (treeDelete s._rtree (hash_string f)
      (polyBounds pl)).map (fun e => e.obj.file)
      = removeFirst (s._rtree.map (fun e => e.obj.file)) (some f) :=
    treeDelete_map_file hpt
  have hnotin : some f ∉ (treeDelete s._rtree (hash_string f)
      (polyBounds pl)).map (fun e => e.obj.file) := by
    rw [hmapdel]
    exact not_mem_removeFirst htnd
  refine ⟨⟨?_, ?_, ?_⟩, dictFind_erase_self hnd⟩
  · rw [hmapdel, hkeys]
    have h1 : s._polygons.map (fun p => some p.1)
        = (s._polygons.map Prod.fst).map some := by simp [List.map_map]
    have h2 : (dictErase s._polygons f).map (fun p => some p.1)
        = ((dictErase s._polygons f).map Prod.fst).map some := by
      simp [List.map_map]
    rw [h1, h2, removeFirst_map_some, dictErase_map_fst]
  · rw [dictErase_map_fst]
    exact hnd.sublist (removeFirst_sublist _ _)
  · intro e he
    have hes : e ∈ s._rtree := (treeDelete_sublist _ _ _).subset he
    obtain ⟨f1, c1, h1, h2, h3, h4, h5⟩ :=
      (entryOKb_iff _ _).mp (hent e hes)
    have hne : f1 ≠ f := by
      intro heq
      subst heq
      exact hnotin (List.mem_map.mpr ⟨e, he, h1⟩)
    rw [entryOKb_iff]
    exact ⟨f1, c1, h1, h2, h3, h4, by rw [dictFind_erase_ne hne]; exact h5⟩

theorem WF_update {s s1 : Polygon_File_Index} {r : Record} {b : Bool}
    (hw : WF s) (h : s.update r = .ok (s1, b)) :
    WF s1 ∧ ∀ g, g ∈ s1._polygons.map Prod.fst ↔
      (g ∈ s._polygons.map Prod.fst ∨ r.file = some g) := by
  cases hfile : r.file with
  | none =>
    unfold Polygon_File_Index.update at h
    simp only [hfile] at h
    cases h
  | some f =>
    cases hpoly : r.polygon with
    | none =>
      unfold Polygon_File_Index.update at h
      simp only [hfile, hpoly] at h
      cases h
    | some coords =>
      cases hfind : dictFind s._polygons f with
      | none =>
        rw [update_new_key hfile hpoly hfind] at h
        cases hins : s.insert r with
        | error e => rw [hins] at h; cases h
        | ok s2 =>
          rw [hins] at h
          have hs2 : s2 = s1 := congrArg Prod.fst (Except.ok.inj h)
          subst hs2
          have hres := WF_insert hw hins
          simpa [hfile] using hres
      | some pl =>
        by_cases heq : almostEquals pl (mkPolygon coords) = true
        · rw [update_unchanged hfile hpoly hfind heq] at h
          have hs : s = s1 := congrArg Prod.fst (Except.ok.inj h)
          subst hs
          refine ⟨hw, fun g => ?_⟩
          constructor
          · exact Or.inl
          · rintro (hg | hg)
            · exact hg
            · cases Option.some.inj hg
              exact dictFind_isSome_iff_mem.mp (by simp [hfind])
        · have hne : almostEquals pl (mkPolygon coords) = false :=
            Bool.eq_false_iff.mpr heq
          rw [update_changed hfile hpoly hfind hne] at h
          obtain ⟨hwmid, hmidnone⟩ := WF_erase_mid hw hfind
          cases hins : Polygon_File_Index.insert
              { _polygons := dictErase s._polygons f,
                _rtree := treeDelete s._rtree (hash_string f)
                  (polyBounds pl) } r with
          | error e => rw [hins] at h; cases h
          | ok s2 =>
            rw [hins] at h
            have hs2 : s2 = s1 := congrArg Prod.fst (Except.ok.inj h)
            subst hs2
            obtain ⟨hwf1, hkeys1⟩ := WF_insert hwmid hins
            refine ⟨hwf1, fun g => ?_⟩
            rw [hkeys1 g]
            simp only [hfile, Option.some_inj]
            constructor
            · rintro (hg | hg)
              · refine Or.inl ?_
                rw [dictErase_map_fst] at hg
                exact (removeFirst_sublist _ _).subset hg
              · exact Or.inr hg
            · rintro (hg | hg)
              · by_cases hgf : g = f
                · exact Or.inr hgf.symm
                · refine Or.inl ?_
                  rw [dictErase_map_fst,
                    mem_removeFirst_of_ne (fun hc => hgf hc)]
                  exact hg
              · exact Or.inr hg

theorem mem_opsFiles_cons {o : Op} {os : List Op} {g : String} :
    g ∈ opsFiles (o :: os) ↔ (o.record.file = some g ∨ g ∈ opsFiles os) := by
  unfold opsFiles
  cases hf : o.record.file with
  | none => simp [List.filterMap_cons, hf]
  | some f =>
    simp only [List.filterMap_cons, hf, List.mem_cons, Option.some_inj]
    constructor
    · rintro (hg | hg)
      · exact Or.inl hg.symm
      · exact Or.inr hg
    · rintro (hg | hg)
      · exact Or.inl hg.symm
      · exact Or.inr hg

theorem runOps_WF {ops : List Op} :
    ∀ {s0 s : Polygon_File_Index}, runOps s0 ops = some s → WF s0 →
      WF s ∧ ∀ g, g ∈ s._polygons.map Prod.fst ↔
        (g ∈ s0._polygons.map Prod.fst ∨ g ∈ opsFiles ops) := by
  induction ops with
  | nil =>
    intro s0 s h hw
    have hs : s0 = s := by simpa [runOps] using h
    subst hs
    exact ⟨hw, fun g => by simp [opsFiles]⟩
  | cons o os ih =>
    intro s0 s h hw
    unfold runOps at h
    cases hstep : stepOp s0 o with
    | error e => rw [hstep] at h; cases h
    | ok s1 =>
      rw [hstep] at h
      have hstep1 : WF s1 ∧ ∀ g, g ∈ s1._polygons.map Prod.fst ↔
          (g ∈ s0._polygons.map Prod.fst ∨ o.record.file = some g) := by
        cases o with
        | ins r => exact WF_insert hw hstep
        | upd r =>
          simp only [stepOp] at hstep
          cases hupd : s0.update r with
          | error e => rw [hupd] at hstep; cases hstep
          | ok p =>
            rw [hupd] at hstep
            obtain ⟨s1', b⟩ := p
            have hs1 : s1' = s1 := by simpa [Except.map] using hstep
            subst hs1
            exact WF_update hw hupd
      obtain ⟨hw1, hkeys1⟩ := hstep1
      obtain ⟨hwf, hkeysf⟩ := ih h hw1
      refine ⟨hwf, fun g => ?_⟩
      rw [hkeysf g, hkeys1 g, mem_opsFiles_cons]
      tauto

theorem WF_empty : WF emptyIndex := by
  refine ⟨rfl, List.nodup_nil, ?_⟩
  intro e he
  cases he

/-- C1: After any sequence of successful `insert`/`update` operations on
a freshly constructed index, the Registry and the Tree hold exactly the same
keys (in the same order) with the same polygons — every tree entry's payload
key maps in the Registry to exactly the polygon built from its payload
coordinates — and `size()` equals the number of distinct keys ever
successfully inserted or updated. -/
theorem C1_registry_tree_consistency (ops : List Op)
    (s : Polygon_File_Index) (h : runOps emptyIndex ops = some s) :
    s._rtree.map (fun e => e.obj.file) = s._polygons.map (fun p => some p.1)
    ∧ (∀ e ∈ s._rtree, ∃ f coords, e.obj.file = some f
        ∧ e.obj.polygon = some coords
        ∧ dictFind s._polygons f = some (mkPolygon coords))
    ∧ s.size = (opsFiles ops).dedup.length := by
  obtain ⟨hw, hkeys⟩ := runOps_WF h WF_empty
  refine ⟨hw.1, ?_, ?_⟩
  · intro e he
    obtain ⟨f, coords, h1, h2, _, _, h5⟩ := (entryOKb_iff _ _).mp (hw.2.2 e he)
    exact ⟨f, coords, h1, h2, h5⟩
  · have hlen : s.size = (s._polygons.map Prod.fst).length := by
      unfold Polygon_File_Index.size
      have := congrArg List.length hw.1
      simpa using this
    rw [hlen]
    have hperm : List.Perm (s._polygons.map Prod.fst)
        (opsFiles ops).dedup := by
      rw [List.perm_ext_iff_of_nodup hw.2.1 (List.nodup_dedup _)]
      intro g
      rw [List.mem_dedup, hkeys g]
      simp [emptyIndex]
    exact hperm.length_eq

/-- Closed witness for C1: the concrete run inserting `recA` then `recB`
reaches `idxAB`, whose Registry and Tree agree and whose size is the number
of distinct keys of the run. -/
theorem C1_registry_tree_consistency_witness :
    runOps emptyIndex [Op.ins recA, Op.ins recB] = some idxAB
    ∧ (idxAB._rtree.map (fun e => e.obj.file)
        = idxAB._polygons.map (fun p => some p.1)
      ∧ (∀ e ∈ idxAB._rtree, ∃ f coords, e.obj.file = some f
          ∧ e.obj.polygon = some coords
          ∧ dictFind idxAB._polygons f = some (mkPolygon coords))
      ∧ idxAB.size = (opsFiles [Op.ins recA, Op.ins recB]).dedup.length) :=
  ⟨by with_unfolding_all decide,
    C1_registry_tree_consistency [Op.ins recA, Op.ins recB] idxAB
      (by with_unfolding_all decide)⟩

/-- C2: operation `update` on a well-formed record: a new key behaves exactly as
`insert` and reports changed; an existing key with an approximately equal
polygon reports unchanged and mutates nothing; an existing key with a
materially different polygon deletes the old Tree entry (located by the old
polygon's bounds), deletes the Registry entry, re-inserts as `insert` would,
reports changed, and leaves `size()` constant. -/
theorem C2_update_semantics (s : Polygon_File_Index) (r : Record)
    (f : String) (coords : QPoly) (hw : WF s)
    (hf : r.file = some f) (hp : r.polygon = some coords) :
    (dictFind s._polygons f = none →
      ∃ s1, s.insert r = .ok s1 ∧ s.update r = .ok (s1, true))
    ∧ (∀ pl, dictFind s._polygons f = some pl →
        almostEquals pl (mkPolygon coords) = true →
        s.update r = .ok (s, false))
    ∧ (∀ pl, dictFind s._polygons f = some pl →
        almostEquals pl (mkPolygon coords) = false →
        ∃ s1, Polygon_File_Index.insert
            { _polygons := dictErase s._polygons f,
              _rtree := treeDelete s._rtree (hash_string f)
                (polyBounds pl) } r = .ok s1
          ∧ s.update r = .ok (s1, true) ∧ s1.size = s.size) := by
  refine ⟨?_, ?_, ?_⟩
  · intro habs
    refine ⟨_, insert_ok_of_absent hf hp habs, ?_⟩
    rw [update_new_key hf hp habs, insert_ok_of_absent hf hp habs]
    rfl
  · intro pl hfind heq
    exact update_unchanged hf hp hfind heq
  · intro pl hfind hne
    obtain ⟨hwmid, hmidnone⟩ := WF_erase_mid hw hfind
    refine ⟨_, insert_ok_of_absent hf hp hmidnone, ?_, ?_⟩
    · rw [update_changed hf hp hfind hne, insert_ok_of_absent hf hp hmidnone]
      rfl
    · unfold Polygon_File_Index.size
      simp only [List.length_append, List.length_cons, List.length_nil]
      have := treeDelete_length (exists_delete_target hw hfind)
      omega

/-- Closed witness for C2: updating key "A" of `idxA` with the materially
different square `sqB` deletes and re-inserts, reports changed and keeps the
size. -/
theorem C2_update_semantics_witness :
    ∃ s1, Polygon_File_Index.insert
        { _polygons := dictErase idxA._polygons "A",
          _rtree := treeDelete idxA._rtree (hash_string "A")
            (polyBounds (mkPolygon sqA)) } recA2 = .ok s1
      ∧ idxA.update recA2 = .ok (s1, true) ∧ s1.size = idxA.size :=
  (C2_update_semantics idxA recA2 "A" sqB (by with_unfolding_all decide)
    rfl rfl).2.2 (mkPolygon sqA) (by with_unfolding_all decide)
    (by with_unfolding_all decide)

/-- C3: operation `insert` on a record whose key already exists is a silent no-op:
the state is returned unchanged even when the polygon differs, so the
polygon stored by the first insert survives (first write wins). -/
theorem C3_insert_existing_noop (s : Polygon_File_Index) (r : Record)
    (f : String) (hf : r.file = some f) (hp : r.polygon.isSome = true)
    (hpres : (dictFind s._polygons f).isSome = true) :
    s.insert r = .ok s
    ∧ ∀ pl, dictFind s._polygons f = some pl →
        ∃ s1, s.insert r = .ok s1 ∧ dictFind s1._polygons f = some pl := by
  have h1 := insert_ok_of_present hf hp hpres
  exact ⟨h1, fun pl hpl => ⟨s, h1, hpl⟩⟩

/-- Closed witness for C3: re-inserting key "A" with the different polygon
`sqB` leaves `idxA` unchanged, and the first insert's polygon stays. -/
theorem C3_insert_existing_noop_witness :
    idxA.insert recA2 = .ok idxA
    ∧ dictFind idxA._polygons "A" = some (mkPolygon sqA) :=
  ⟨(C3_insert_existing_noop idxA recA2 "A" rfl rfl
      (by with_unfolding_all decide)).1,
    by with_unfolding_all decide⟩

/-- C7: A record missing the key field or the polygon field is rejected
synchronously by both `insert` and `update` with a `MalformedRecord` error;
in this pure model the failing call returns no state at all, so the index
is exactly as before the call (the Python `_check_data` runs before any
mutation). -/
theorem C7_malformed_rejected (s : Polygon_File_Index) (r : Record)
    (h : r.file = none ∨ r.polygon = none) :
    (∃ e, s.insert r = .error e) ∧ (∃ e, s.update r = .error e) := by
  cases hfile : r.file with
  | none =>
    constructor
    · refine ⟨.missingFile, ?_⟩
      unfold Polygon_File_Index.insert
      simp only [hfile]
    · refine ⟨.missingFile, ?_⟩
      unfold Polygon_File_Index.update
      simp only [hfile]
  | some f =>
    have hpoly : r.polygon = none := by
      rcases h with h1 | h1
      · rw [hfile] at h1; cases h1
      · exact h1
    constructor
    · refine ⟨.missingPolygon, ?_⟩
      unfold Polygon_File_Index.insert
      simp only [hfile, hpoly]
    · refine ⟨.missingPolygon, ?_⟩
      unfold Polygon_File_Index.update
      simp only [hfile, hpoly]

/-- Closed witness for C7: inserting or updating the empty record into the
empty index fails with a `MalformedRecord` error. -/
theorem C7_malformed_rejected_witness :
    (∃ e, emptyIndex.insert recBad = .error e)
    ∧ (∃ e, emptyIndex.update recBad = .error e) :=
  C7_malformed_rejected emptyIndex recBad (Or.inl rfl)

/-- C10: operation `update` with a polygon approximately equal to the stored one
returns `false` and returns the state literally unchanged: every stored
payload — metadata fields included — stays exactly as it was, even though
the incoming record's metadata may differ; the metadata change is silently
discarded. -/
theorem C10_update_discards_metadata (s : Polygon_File_Index) (r : Record)
    (f : String) (coords pl : QPoly) (hf : r.file = some f)
    (hp : r.polygon = some coords)
    (hfind : dictFind s._polygons f = some pl)
    (heq : almostEquals pl (mkPolygon coords) = true) :
    s.update r = .ok (s, false) :=
  update_unchanged hf hp hfind heq

/-- Closed witness for C10: updating `idxA` with `recAm` (same key "A",
same polygon, different metadata) reports unchanged and leaves the state —
including the stored record's empty metadata — exactly `idxA`. -/
theorem C10_update_discards_metadata_witness :
    idxA.update recAm = .ok (idxA, false)
    ∧ recAm.meta ≠ recA.meta
    ∧ (∀ e ∈ idxA._rtree, e.obj.meta = recA.meta) :=
  ⟨C10_update_discards_metadata idxA recAm "A" sqA (mkPolygon sqA) rfl rfl
      (by with_unfolding_all decide) (by with_unfolding_all decide),
    by with_unfolding_all decide, by with_unfolding_all decide⟩

set_option maxRecDepth 2000 in
/-- C6: operation `nearest(point)` yields only records whose Registry polygon
contains the point, and draws its candidates solely from the Tree's
nearest-neighbour query (seeded with k = 1, closest by bounding box); on the
single-square sample index, `nearest((5,5))` yields the record and
`nearest((50,50))` yields the empty sequence. -/
theorem C6_nearest_containment (s : Polygon_File_Index) (p : Pt) :
    (∀ r ∈ s.nearest p, r ∈ treeNearest s._rtree p
      ∧ ∃ f pl, r.file = some f ∧ dictFind s._polygons f = some pl
          ∧ containsPoint pl p = true)
    ∧ idxA.nearest (5, 5) = [recA]
    ∧ idxA.nearest (50, 50) = [] := by
  refine ⟨?_, ?_, ?_⟩
  · intro r hr
    unfold Polygon_File_Index.nearest at hr
    obtain ⟨hmem, hfil⟩ := List.mem_filter.mp hr
    refine ⟨hmem, ?_⟩
    cases hfile : r.file with
    | none =>
      simp only [hfile] at hfil
      cases hfil
    | some f =>
      simp only [hfile] at hfil
      cases hfind : dictFind s._polygons f with
      | none =>
        simp only [hfind] at hfil
        cases hfil
      | some pl =>
        simp only [hfind] at hfil
        exact ⟨f, pl, rfl, hfind, hfil⟩
  · have ht : treeNearest idxA._rtree (5, 5) = [recA] := by
      with_unfolding_all decide
    have hd : dictFind idxA._polygons "A" = some (mkPolygon sqA) := by
      with_unfolding_all decide
    have hp : containsPoint (mkPolygon sqA) (5, 5) = true := by
      with_unfolding_all decide
    unfold Polygon_File_Index.nearest
    rw [ht]
    simp [recA, hd, hp]
  · have hrt : idxA._rtree
        = [⟨hash_string "A", polyBounds (mkPolygon sqA), recA⟩] := by
      with_unfolding_all decide
    have hb : bboxDist (polyBounds (mkPolygon sqA)) (50, 50) = 3200 := by
      norm_num [bboxDist, axDist, polyBounds, mkPolygon, closeRing, sqA,
        boundsAux, expandBBox, List.getLast?]
    have ht : treeNearest idxA._rtree (50, 50) = [recA] := by
      rw [hrt]
      unfold treeNearest
      simp [hb]
    have hd : dictFind idxA._polygons "A" = some (mkPolygon sqA) := by
      with_unfolding_all decide
    have hp : containsPoint (mkPolygon sqA) (50, 50) = false := by
      with_unfolding_all decide
    unfold Polygon_File_Index.nearest
    rw [ht]
    simp [recA, hd, hp]

/-- Closed witness for C6: the two concrete `nearest` evaluations on the
single-square index. -/
theorem C6_nearest_containment_witness :
    idxA.nearest (5, 5) = [recA] ∧ idxA.nearest (50, 50) = [] :=
  ⟨(C6_nearest_containment emptyIndex (0, 0)).2.1,
    (C6_nearest_containment emptyIndex (0, 0)).2.2⟩

theorem dictFind_mapSet_ne {d : List (String × QPoly)} {k g : String}
    {v : QPoly} (h : g ≠ k) :
    dictFind (d.map (fun p => if p.1 = k then (k, v) else p)) g
      = dictFind d g := by
  induction d with
  | nil => rfl
  | cons p d ih =>
    obtain ⟨k1, v1⟩ := p
    by_cases hk1 : k1 = k
    · subst hk1
      simp only [List.map_cons, if_true]
      simp only [dictFind, if_neg h]
      exact ih
    · simp only [List.map_cons]
      rw [if_neg hk1]
      simp only [dictFind]
      by_cases hg : g = k1
      · rw [if_pos hg, if_pos hg]
      · rw [if_neg hg, if_neg hg]
        exact ih

theorem dictFind_mapSet_present {d : List (String × QPoly)} {k : String}
    {v : QPoly} (h : (dictFind d k).isSome = true) :
    dictFind (d.map (fun p => if p.1 = k then (k, v) else p)) k
      = some v := by
  induction d with
  | nil => simp [dictFind] at h
  | cons p d ih =>
    obtain ⟨k1, v1⟩ := p
    by_cases hk1 : k1 = k
    · subst hk1
      simp only [List.map_cons, if_true]
      simp [dictFind]
    · simp only [List.map_cons]
      rw [if_neg hk1]
      have hkk : ¬ (k = k1) := fun hc => hk1 hc.symm
      simp only [dictFind, if_neg hkk]
      apply ih
      simp only [dictFind, if_neg hkk] at h
      exact h

theorem dictFind_dictSet_self (d : List (String × QPoly)) (k : String)
    (v : QPoly) : dictFind (dictSet d k v) k = some v := by
  unfold dictSet
  by_cases h : (dictFind d k).isSome
  · rw [if_pos h]
    exact dictFind_mapSet_present h
  · rw [if_neg h]
    rw [dictFind_append_none (Option.not_isSome_iff_eq_none.mp h)]
    simp [dictFind]

theorem dictFind_dictSet_ne {d : List (String × QPoly)} {k g : String}
    {v : QPoly} (h : g ≠ k) :
    dictFind (dictSet d k v) g = dictFind d g := by
  unfold dictSet
  by_cases hp : (dictFind d k).isSome
  · rw [if_pos hp]
    exact dictFind_mapSet_ne h
  · rw [if_neg hp]
    cases hg : dictFind d g with
    | none =>
      rw [dictFind_append_none hg]
      simp [dictFind, h]
    | some w => exact dictFind_append_some hg

/-- C8: operation `load` skips — without failing — every persisted entry whose
payload misses the key or the polygon field; a valid entry is put into the
Tree with its persisted id, bounding box and payload exactly as stored (no
hash recomputation) while the Registry polygon for its key is rebuilt from
the payload coordinates; and loading never clears anything: the old tree is
a prefix of the new one and every previously present Registry key remains
present, so loading into a non-empty index merges into it. -/
theorem C8_load_semantics (s : Polygon_File_Index) (x : SavedEntry)
    (xs : List SavedEntry) (es : List SavedEntry) :
    (x.obj.file = none ∨ x.obj.polygon = none →
      Polygon_File_Index.load s (x :: xs) = Polygon_File_Index.load s xs)
    ∧ (∀ f coords, x.obj.file = some f → x.obj.polygon = some coords →
        Polygon_File_Index.load s (x :: xs) = Polygon_File_Index.load
          { _polygons := dictSet s._polygons f (mkPolygon coords),
            _rtree := s._rtree ++ [x.toEntry] } xs)
    ∧ (∃ rest, (Polygon_File_Index.load s es)._rtree = s._rtree ++ rest)
    ∧ (∀ f, (dictFind s._polygons f).isSome = true →
        (dictFind (Polygon_File_Index.load s es)._polygons f).isSome
          = true) := by
  refine ⟨?_, ?_, ?_, ?_⟩
  · intro h
    cases hfile : x.obj.file with
    | none => simp only [Polygon_File_Index.load, hfile]
    | some f =>
      have hpoly : x.obj.polygon = none := by
        rcases h with h1 | h1
        · rw [hfile] at h1; cases h1
        · exact h1
      simp only [Polygon_File_Index.load, hfile, hpoly]
  · intro f coords hfile hpoly
    simp only [Polygon_File_Index.load, hfile, hpoly]
    rfl
  · clear x xs
    induction es generalizing s with
    | nil => exact ⟨[], by simp [Polygon_File_Index.load]⟩
    | cons x xs ih =>
      cases hfile : x.obj.file with
      | none =>
        simp only [Polygon_File_Index.load, hfile]
        exact ih s
      | some f =>
        cases hpoly : x.obj.polygon with
        | none =>
          simp only [Polygon_File_Index.load, hfile, hpoly]
          exact ih s
        | some coords =>
          simp only [Polygon_File_Index.load, hfile, hpoly]
          obtain ⟨rest, hrest⟩ := ih
            { _polygons := dictSet s._polygons f (mkPolygon coords),
              _rtree := s._rtree ++ [⟨x.id, x.bbox, x.obj⟩] }
          exact ⟨⟨x.id, x.bbox, x.obj⟩ :: rest, by rw [hrest]; simp⟩
  · clear x xs
    induction es generalizing s with
    | nil =>
      intro f hf
      simpa [Polygon_File_Index.load] using hf
    | cons x xs ih =>
      intro f hf
      cases hfile : x.obj.file with
      | none =>
        simp only [Polygon_File_Index.load, hfile]
        exact ih s f hf
      | some g =>
        cases hpoly : x.obj.polygon with
        | none =>
          simp only [Polygon_File_Index.load, hfile, hpoly]
          exact ih s f hf
        | some coords =>
          simp only [Polygon_File_Index.load, hfile, hpoly]
          apply ih
          by_cases hfg : f = g
          · subst hfg
            simp [dictFind_dictSet_self]
          · rw [dictFind_dictSet_ne hfg]
            exact hf

/-- Closed witness for C8: loading a malformed entry into `idxA` changes
nothing, and loading the valid saved entry of `recB` merges additively into
the non-empty `idxA`. -/
theorem C8_load_semantics_witness :
    (Polygon_File_Index.load idxA
        [⟨0, polyBounds (mkPolygon sqB), recBad⟩]
      = Polygon_File_Index.load idxA [])
    ∧ (∃ rest, (Polygon_File_Index.load idxA
        [⟨hash_string "B", polyBounds (mkPolygon sqB), recB⟩])._rtree
          = idxA._rtree ++ rest) :=
  ⟨(C8_load_semantics idxA ⟨0, polyBounds (mkPolygon sqB), recBad⟩ [] []).1
      (Or.inl rfl),
    (C8_load_semantics idxA ⟨hash_string "B", polyBounds (mkPolygon sqB), recB⟩
      [] [⟨hash_string "B", polyBounds (mkPolygon sqB), recB⟩]).2.2.1⟩

set_option maxRecDepth 2000 in
/-- C9: operation `load` inserts valid entries into the Tree unconditionally even
when the key is already present: loading the saved file of `idxA` back into
`idxA` leaves two tree entries but a single Registry key, so `size()`
(the tree count) exceeds the number of distinct keys held. -/
theorem C9_load_duplicate_key_breaks_invariant :
    (Polygon_File_Index.load idxA
      (Polygon_File_Index.save idxA))._rtree.length = 2
    ∧ ((Polygon_File_Index.load idxA
        (Polygon_File_Index.save idxA))._polygons.map Prod.fst).dedup.length
      = 1
    ∧ ((Polygon_File_Index.load idxA
        (Polygon_File_Index.save idxA))._polygons.map Prod.fst).dedup.length
      < (Polygon_File_Index.load idxA (Polygon_File_Index.save idxA)).size := by
  refine ⟨?_, ?_, ?_⟩ <;> with_unfolding_all decide

theorem bboxWF_expand {b : BBox} (q : Pt) (h : bboxWF b) :
    bboxWF (expandBBox b q) := by
  obtain ⟨h1, h2⟩ := h
  exact ⟨le_trans (min_le_left _ _) (le_trans h1 (le_max_left _ _)),
    le_trans (min_le_left _ _) (le_trans h2 (le_max_left _ _))⟩

theorem bboxWF_boundsAux : ∀ (qs : QPoly) (b : BBox), bboxWF b →
    bboxWF (boundsAux b qs)
  | [], _, h => h
  | q :: qs, _, h => bboxWF_boundsAux qs _ (bboxWF_expand q h)

theorem polyBounds_wf (p : QPoly) : bboxWF (polyBounds p) := by
  cases p with
  | nil => exact ⟨le_refl 0, le_refl 0⟩
  | cons q qs => exact bboxWF_boundsAux qs _ ⟨le_refl _, le_refl _⟩

theorem unionAux_le (t : List Entry) : ∀ acc : BBox,
    (unionAux acc t).minx ≤ acc.minx ∧ (unionAux acc t).miny ≤ acc.miny
    ∧ acc.maxx ≤ (unionAux acc t).maxx
    ∧ acc.maxy ≤ (unionAux acc t).maxy := by
  induction t with
  | nil => exact fun acc => ⟨le_refl _, le_refl _, le_refl _, le_refl _⟩
  | cons e t ih =>
    intro acc
    have h := ih (bboxUnion acc e.bbox)
    exact ⟨le_trans h.1 (min_le_left _ _), le_trans h.2.1 (min_le_left _ _),
      le_trans (le_max_left _ _) h.2.2.1,
      le_trans (le_max_left _ _) h.2.2.2⟩

theorem mem_unionAux_le {e : Entry} {t : List Entry} (he : e ∈ t) :
    ∀ acc : BBox,
    (unionAux acc t).minx ≤ e.bbox.minx
    ∧ (unionAux acc t).miny ≤ e.bbox.miny
    ∧ e.bbox.maxx ≤ (unionAux acc t).maxx
    ∧ e.bbox.maxy ≤ (unionAux acc t).maxy := by
  induction t with
  | nil => cases he
  | cons x t ih =>
    intro acc
    rcases List.mem_cons.mp he with h1 | h1
    · subst h1
      have h := unionAux_le t (bboxUnion acc e.bbox)
      exact ⟨le_trans h.1 (min_le_right _ _),
        le_trans h.2.1 (min_le_right _ _),
        le_trans (le_max_right _ _) h.2.2.1,
        le_trans (le_max_right _ _) h.2.2.2⟩
    · exact ih h1 (bboxUnion acc x.bbox)

theorem treeBounds_overlaps {t : List Entry} {e : Entry} {b : BBox}
    (hwf : bboxWF e.bbox) (he : e ∈ t) (hb : treeBounds t = some b) :
    overlapsBBox e.bbox b = true := by
  cases t with
  | nil => cases he
  | cons x xs =>
    have hb2 : unionAux x.bbox xs = b := Option.some.inj hb
    have hle : b.minx ≤ e.bbox.minx ∧ b.miny ≤ e.bbox.miny
        ∧ e.bbox.maxx ≤ b.maxx ∧ e.bbox.maxy ≤ b.maxy := by
      rcases List.mem_cons.mp he with h1 | h1
      · subst h1
        have h := unionAux_le xs e.bbox
        rw [hb2] at h
        exact h
      · have h := mem_unionAux_le h1 x.bbox
        rw [hb2] at h
        exact h
    unfold overlapsBBox
    rw [decide_eq_true_eq]
    exact ⟨le_trans hwf.1 hle.2.2.1, le_trans hle.1 hwf.1,
      le_trans hwf.2 hle.2.2.2, le_trans hle.2.1 hwf.2⟩

theorem save_eq_map {s : Polygon_File_Index}
    (hwf : ∀ e ∈ s._rtree, bboxWF e.bbox) :
    s.save = s._rtree.map Entry.toSaved := by
  unfold Polygon_File_Index.save
  cases ht : s._rtree with
  | nil => simp [treeBounds]
  | cons x xs =>
    simp only [treeBounds]
    unfold treeIntersection
    rw [List.filter_eq_self.mpr]
    · rfl
    · intro e he
      refine treeBounds_overlaps (hwf e (by rw [ht]; exact he)) he ?_
      rfl

theorem load_rtree (es : List SavedEntry) : ∀ s0 : Polygon_File_Index,
    (Polygon_File_Index.load s0 es)._rtree
      = s0._rtree ++ es.filterMap (fun x =>
          match x.obj.file, x.obj.polygon with
          | some _, some _ => some x.toEntry
          | _, _ => none) := by
  induction es with
  | nil => intro s0; simp [Polygon_File_Index.load]
  | cons x xs ih =>
    intro s0
    cases hfile : x.obj.file with
    | none =>
      simp only [Polygon_File_Index.load, hfile, List.filterMap_cons]
      rw [ih s0]
    | some f =>
      cases hpoly : x.obj.polygon with
      | none =>
        simp only [Polygon_File_Index.load, hfile, hpoly,
          List.filterMap_cons]
        rw [ih s0]
      | some coords =>
        simp only [Polygon_File_Index.load, hfile, hpoly,
          List.filterMap_cons]
        rw [ih]
        simp [SavedEntry.toEntry]

theorem load_find_nodup (es : List SavedEntry) :
    ∀ (s0 : Polygon_File_Index) (g : String),
    (es.filterMap (fun x => x.obj.file)).Nodup →
    dictFind (Polygon_File_Index.load s0 es)._polygons g
      = (match es.find? (fun x => x.obj.file == some g) with
        | none => dictFind s0._polygons g
        | some x =>
          match x.obj.polygon with
          | some c => some (mkPolygon c)
          | none => dictFind s0._polygons g) := by
  induction es with
  | nil =>
    intro s0 g _
    simp [Polygon_File_Index.load, List.find?]
  | cons x xs ih =>
    intro s0 g hnd
    cases hfile : x.obj.file with
    | none =>
      have hpred : (x.obj.file == some g) = false := by
        rw [hfile]; rfl
      simp only [Polygon_File_Index.load, hfile, List.find?_cons, hpred]
      apply ih
      simpa [List.filterMap_cons, hfile] using hnd
    | some f =>
      rw [List.filterMap_cons] at hnd
      simp only [hfile] at hnd
      have hnd2 : (xs.filterMap (fun x => x.obj.file)).Nodup :=
        (List.nodup_cons.mp hnd).2
      have hfnot : f ∉ xs.filterMap (fun x => x.obj.file) :=
        (List.nodup_cons.mp hnd).1
      by_cases hfg : f = g
      · subst hfg
        have hpred : ((some f : Option String) == some f) = true := by simp
        have hnone : xs.find? (fun x => x.obj.file == some f) = none := by
          rw [List.find?_eq_none]
          intro y hy hpy
          apply hfnot
          have : y.obj.file = some f := by
            simpa using hpy
          exact List.mem_filterMap.mpr ⟨y, hy, this⟩
        cases hpoly : x.obj.polygon with
        | none =>
          simp only [Polygon_File_Index.load, hfile, hpoly,
            List.find?_cons, hpred]
          rw [ih s0 f hnd2, hnone]
        | some coords =>
          simp only [Polygon_File_Index.load, hfile, hpoly,
            List.find?_cons, hpred]
          rw [ih _ f hnd2, hnone]
          exact dictFind_dictSet_self s0._polygons f (mkPolygon coords)
      · have hpred : ((some f : Option String) == some g) = false := by
          simp [hfg]
        cases hpoly : x.obj.polygon with
        | none =>
          simp only [Polygon_File_Index.load, hfile, hpoly,
            List.find?_cons, hpred]
          exact ih s0 g hnd2
        | some coords =>
          simp only [Polygon_File_Index.load, hfile, hpoly,
            List.find?_cons, hpred]
          rw [ih _ g hnd2]
          cases hfd : xs.find? (fun x => x.obj.file == some g) with
          | none =>
            simp only []
            exact dictFind_dictSet_ne (fun hc => hfg hc.symm)
          | some y =>
            show (match y.obj.polygon with
                | some c => some (mkPolygon c)
                | none =>
                  dictFind (dictSet s0._polygons f (mkPolygon coords)) g)
              = (match y.obj.polygon with
                | some c => some (mkPolygon c)
                | none => dictFind s0._polygons g)
            cases y.obj.polygon with
            | none => exact dictFind_dictSet_ne (fun hc => hfg hc.symm)
            | some c => rfl

theorem filterMap_length_all_some {α β : Type} (f : α → Option β) :
    ∀ l : List α, (∀ a ∈ l, (f a).isSome = true) →
      (l.filterMap f).length = l.length := by
  intro l
  induction l with
  | nil => intro _; rfl
  | cons a l ih =>
    intro h
    rw [List.filterMap_cons]
    cases hf : f a with
    | none =>
      exfalso
      have := h a (List.mem_cons_self a l)
      rw [hf] at this
      cases this
    | some b1 =>
      simp only [List.length_cons]
      rw [ih (fun a1 ha1 => h a1 (List.mem_cons_of_mem a ha1))]

theorem filterMap_file_of_map_some :
    ∀ (t : List Entry) (l : List String),
    t.map (fun e => e.obj.file) = l.map some →
    t.filterMap (fun e => e.obj.file) = l := by
  intro t
  induction t with
  | nil =>
    intro l h
    cases l with
    | nil => rfl
    | cons g l1 => cases h
  | cons e t ih =>
    intro l h
    cases l with
    | nil => cases h
    | cons g l1 =>
      simp only [List.map_cons, List.cons.injEq] at h
      rw [List.filterMap_cons, h.1]
      simp only []
      rw [ih l1 h.2]

/-- C4: Round-trip persistence: for a consistent index, `save` followed
by `load` into a freshly constructed empty index reproduces an index of the
same `size()` in which every key maps to exactly the polygon it had in the
original Registry (hence geometrically equal within any tolerance). -/
theorem C4_save_load_roundtrip (s : Polygon_File_Index) (hw : WF s) :
    (Polygon_File_Index.load emptyIndex s.save).size = s.size
    ∧ ∀ g, dictFind (Polygon_File_Index.load emptyIndex s.save)._polygons g
        = dictFind s._polygons g := by
  have hbwf : ∀ e ∈ s._rtree, bboxWF e.bbox := by
    intro e he
    obtain ⟨f, c, h1, h2, h3, h4, h5⟩ := (entryOKb_iff _ _).mp (hw.2.2 e he)
    rw [h4]
    exact polyBounds_wf _
  have hsave := save_eq_map hbwf
  have hfiles : (s._rtree.map Entry.toSaved).filterMap (fun x => x.obj.file)
      = s._polygons.map Prod.fst := by
    rw [List.filterMap_map]
    exact filterMap_file_of_map_some s._rtree _ (by
      rw [hw.1, List.map_map]
      rfl)
  constructor
  · unfold Polygon_File_Index.size
    rw [load_rtree, hsave]
    simp only [emptyIndex, List.nil_append]
    rw [List.filterMap_map]
    apply filterMap_length_all_some
    intro e he
    obtain ⟨f, c, h1, h2, _, _, _⟩ := (entryOKb_iff _ _).mp (hw.2.2 e he)
    simp only [Function.comp_apply, Entry.toSaved, h1, h2]
    rfl
  · intro g
    rw [hsave, load_find_nodup _ emptyIndex g (by rw [hfiles]; exact hw.2.1)]
    cases hfd : (s._rtree.map Entry.toSaved).find?
        (fun x => x.obj.file == some g) with
    | none =>
      rw [List.find?_eq_none] at hfd
      have hnot : g ∉ s._polygons.map Prod.fst := by
        intro hmem
        rw [← hfiles] at hmem
        obtain ⟨x, hx, hxf⟩ := List.mem_filterMap.mp hmem
        exact hfd x hx (by simp [hxf])
      rw [dictFind_none_iff_not_mem.mpr hnot]
      rfl
    | some x =>
      have hx := List.mem_of_find?_eq_some hfd
      have hpx := List.find?_some hfd
      obtain ⟨e, he, hex⟩ := List.mem_map.mp hx
      have hef : e.obj.file = some g := by
        rw [← hex] at hpx
        simpa [Entry.toSaved] using hpx
      obtain ⟨f, c, h1, h2, h3, h4, h5⟩ :=
        (entryOKb_iff _ _).mp (hw.2.2 e he)
      have hfg : f = g := Option.some.inj (h1.symm.trans hef)
      subst hfg
      rw [← hex]
      simp only [Entry.toSaved, h2]
      exact h5.symm

/-- Closed witness for C4: the round trip on the two-record index `idxAB`
preserves the size and every key's Registry polygon. -/
theorem C4_save_load_roundtrip_witness :
    (Polygon_File_Index.load emptyIndex idxAB.save).size = idxAB.size
    ∧ ∀ g, dictFind (Polygon_File_Index.load emptyIndex
          idxAB.save)._polygons g
        = dictFind idxAB._polygons g :=
  C4_save_load_roundtrip idxAB (by with_unfolding_all decide)

theorem intersectLoop_objs (gi : GeomIntersect) (qpl : QPoly)
    (src : Polygon_File_Index) :
    ∀ (cs : List Record) (res : Polygon_File_Index),
    (cs.filterMap (fun d => d.file)).Nodup →
    (∀ d ∈ cs, ∀ f, d.file = some f → dictFind res._polygons f = none) →
    (Polygon_File_Index.intersectLoop gi qpl src res cs)._rtree.map
        (fun e => e.obj)
      = res._rtree.map (fun e => e.obj)
        ++ cs.filterMap (specClip gi qpl src) := by
  intro cs
  induction cs with
  | nil =>
    intro res _ _
    simp [Polygon_File_Index.intersectLoop]
  | cons d cs ih =>
    intro res hnd habs
    cases hfile : d.file with
    | none =>
      simp only [Polygon_File_Index.intersectLoop, hfile,
        List.filterMap_cons, specClip]
      exact ih res (by simpa [List.filterMap_cons, hfile] using hnd)
        (fun d1 hd1 => habs d1 (List.mem_cons_of_mem d hd1))
    | some f =>
      rw [List.filterMap_cons] at hnd
      simp only [hfile] at hnd
      have hnd2 := (List.nodup_cons.mp hnd).2
      have hfnot := (List.nodup_cons.mp hnd).1
      cases hfind : dictFind src._polygons f with
      | none =>
        simp only [Polygon_File_Index.intersectLoop, hfile, hfind,
          List.filterMap_cons, specClip]
        exact ih res hnd2
          (fun d1 hd1 => habs d1 (List.mem_cons_of_mem d hd1))
      | some pl =>
        by_cases hemp : (gi qpl pl).isEmpty = true
        · simp only [Polygon_File_Index.intersectLoop, hfile, hfind, hemp,
            List.filterMap_cons, specClip, if_pos, if_true]
          exact ih res hnd2
            (fun d1 hd1 => habs d1 (List.mem_cons_of_mem d hd1))
        · have hempf : (gi qpl pl).isEmpty = false :=
            Bool.eq_false_iff.mpr hemp
          cases hasp : (gi qpl pl).asPolygon with
          | none =>
            simp only [Polygon_File_Index.intersectLoop, hfile, hfind,
              hempf, hasp, List.filterMap_cons, specClip,
              Bool.false_eq_true, if_neg, if_false]
            exact ih res hnd2
              (fun d1 hd1 => habs d1 (List.mem_cons_of_mem d hd1))
          | some c =>
            have habs0 : dictFind res._polygons f = none :=
              habs d (List.mem_cons_self d cs) f hfile
            have hins := insert_ok_of_absent
              (r := { file := some f, polygon := some c, meta := d.meta })
              rfl rfl habs0
            have hforce : insertForce res
                { file := some f, polygon := some c, meta := d.meta }
                = { _polygons := res._polygons ++ [(f, mkPolygon c)],
                    _rtree := res._rtree
                      ++ [⟨hash_string f, polyBounds (mkPolygon c),
                          { file := some f, polygon := some c,
                            meta := d.meta }⟩] } := by
              unfold insertForce
              rw [hins]
            simp only [Polygon_File_Index.intersectLoop, hfile, hfind,
              hempf, hasp, List.filterMap_cons, specClip,
              Bool.false_eq_true, if_neg, if_false]
            rw [hforce, ih _ hnd2 ?habs1]
            case habs1 =>
              intro d1 hd1 f1 hf1
              have hf1mem : f1 ∈ cs.filterMap (fun d => d.file) :=
                List.mem_filterMap.mpr ⟨d1, hd1, hf1⟩
              have hne : f1 ≠ f := fun hc => hfnot (hc ▸ hf1mem)
              rw [dictFind_append_none
                (habs d1 (List.mem_cons_of_mem d hd1) f1 hf1)]
              simp [dictFind, hne]
            simp

/-- C5: operation `intersect(Q)` returns a fresh index whose stored payloads are
exactly the clips described by the specification: one record per stored
entry whose bounding box overlaps Q's bounding box and whose geometric
intersection with Q is a non-empty single simple polygon, equal to the
original payload with its polygon replaced by the intersection's exterior
coordinates; empty or non-polygon intersections are skipped, and an empty
source index yields the empty index immediately. -/
theorem C5_intersect_clips (gi : GeomIntersect) (s : Polygon_File_Index)
    (q : QPoly) (hw : WF s) :
    (s._rtree = [] → Polygon_File_Index.intersect gi s q = emptyIndex)
    ∧ (Polygon_File_Index.intersect gi s q)._rtree.map (fun e => e.obj)
      = ((treeIntersection s._rtree (polyBounds (mkPolygon q))).map
          (fun e => e.obj)).filterMap (specClip gi (mkPolygon q) s) := by
  constructor
  · intro ht
    simp only [Polygon_File_Index.intersect, ht]
    rfl
  · simp only [Polygon_File_Index.intersect]
    by_cases hlen : s._rtree.length = 0
    · rw [if_pos hlen]
      have ht : s._rtree = [] := List.length_eq_zero.mp hlen
      rw [ht]
      simp [treeIntersection, emptyIndex]
    · rw [if_neg hlen]
      rw [intersectLoop_objs gi (mkPolygon q) s _ emptyIndex ?nd ?ab]
      · simp [emptyIndex]
      case nd =>
        have h1 : (((treeIntersection s._rtree
              (polyBounds (mkPolygon q))).map
            (fun e => e.obj)).filterMap (fun d => d.file))
            = (treeIntersection s._rtree
                (polyBounds (mkPolygon q))).filterMap
              (fun e => e.obj.file) := by
          rw [List.filterMap_map]
          rfl
        rw [h1]
        have hsub : ((treeIntersection s._rtree
            (polyBounds (mkPolygon q))).filterMap
              (fun e => e.obj.file)).Sublist
            (s._rtree.filterMap (fun e => e.obj.file)) :=
          (List.filter_sublist _).filterMap _
        refine List.Nodup.sublist hsub ?_
        rw [filterMap_file_of_map_some s._rtree _
          (by rw [hw.1, List.map_map]; rfl)]
        exact hw.2.1
      case ab =>
        intro d hd f hf
        rfl

/-- Closed witness for C5 at a concrete geometry collaborator (one that
reports every intersection empty) on `idxA` with query `sqB`. -/
theorem C5_intersect_clips_witness :
    (idxA._rtree = [] → Polygon_File_Index.intersect
        (fun _ _ => ⟨true, none⟩) idxA sqB = emptyIndex)
    ∧ (Polygon_File_Index.intersect
        (fun _ _ => ⟨true, none⟩) idxA sqB)._rtree.map (fun e => e.obj)
      = ((treeIntersection idxA._rtree (polyBounds (mkPolygon sqB))).map
          (fun e => e.obj)).filterMap
            (specClip (fun _ _ => ⟨true, none⟩) (mkPolygon sqB) idxA) :=
  C5_intersect_clips (fun _ _ => ⟨true, none⟩) idxA sqB
    (by with_unfolding_all decide)
